import Mathlib

/-!
Verification of the PP-TIO privacy-preserving threat-intelligence overlap
protocol (`src/data/bloom_filter.py`, `src/computation/overlap_calculator.py`,
`src/computation/protocol.py`) against its natural-language specification.

The Python code is shallowly embedded:
* `BloomFilter` mirrors the class of `bloom_filter.py` for valid (natural)
  parameters; `BloomFilterRaw.init` mirrors `BloomFilter.__init__` on raw
  Python integers, including the numpy rejection of negative dimensions.
* The SHA-256-derived integer `int(hashlib.sha256(f"{item}{seed}").hexdigest(), 16)`
  is a fixed mathematical function of `(item, seed)`; it is embedded as an
  explicit parameter `H : String → ℕ → ℕ`, and every theorem quantifies over it,
  so nothing proved here depends on properties of SHA-256.
* Real-valued float formulas (`np.log`, `np.exp`, float division) are embedded
  over `ℝ` (exact real arithmetic, the standard idealization of the float
  formulas); exact integer/rational computations stay in `ℕ`/`ℤ`/`ℚ`.
-/

namespace PPT

/-- Embeds the state of `BloomFilter` (`src/data/bloom_filter.py`) for
parameters already known to be natural numbers: `size`, `hash_count`,
the integer `bit_array` (numpy array of 0/1 ints of length `size`) and
`item_count`. -/
structure BloomFilter where
  size : ℕ
  hash_count : ℕ
  bit_array : List ℕ
  item_count : ℕ
deriving DecidableEq

/-- Embeds `BloomFilter._hash`: the SHA-256-derived integer of
`f"{item}{seed}"` (supplied as `H`) reduced modulo `size`. -/
def hashIdx (H : String → ℕ → ℕ) (size : ℕ) (item : String) (seed : ℕ) : ℕ :=
  H item seed % size

/-- Writes a `1` at each index of `idxs` in turn: the loop body of
`BloomFilter.add` (`self.bit_array[index] = 1`), folded over a list of
indices. `List.set` at an out-of-range index is a no-op, matching the fact
that `_hash` always produces an in-range index for a positive `size`. -/
def writeOnes (arr : List ℕ) (idxs : List ℕ) : List ℕ :=
  idxs.foldl (fun a j => a.set j 1) arr

/-- Embeds `BloomFilter.__init__` for natural parameters: a zero bit array of
length `size` and `item_count = 0`. -/
def BloomFilter.empty (size hash_count : ℕ) : BloomFilter :=
  ⟨size, hash_count, List.replicate size 0, 0⟩

/-- Embeds `BloomFilter.add`: set the bit at `_hash(item, i)` for each
`i in range(hash_count)` and increment `item_count` unconditionally. -/
def BloomFilter.add (H : String → ℕ → ℕ) (bf : BloomFilter) (item : String) :
    BloomFilter :=
  { bf with
    bit_array := writeOnes bf.bit_array
      ((List.range bf.hash_count).map (hashIdx H bf.size item)),
    item_count := bf.item_count + 1 }

/-- Embeds `BloomFilter.add_multiple`: `add` each item in order. -/
def BloomFilter.add_multiple (H : String → ℕ → ℕ) (bf : BloomFilter)
    (items : List String) : BloomFilter :=
  items.foldl (BloomFilter.add H) bf

/-- Embeds `BloomFilter.contains`: `False` as soon as one probed bit is `0`,
else `True`. -/
def BloomFilter.contains (H : String → ℕ → ℕ) (bf : BloomFilter)
    (item : String) : Bool :=
  (List.range bf.hash_count).all
    (fun i => bf.bit_array.getD (hashIdx H bf.size item i) 0 != 0)

/-- Embeds `BloomFilter.count_set_bits`: `int(np.sum(self.bit_array))`. -/
def BloomFilter.count_set_bits (bf : BloomFilter) : ℕ :=
  bf.bit_array.sum

section BitListLemmas

theorem writeOnes_nil (arr : List ℕ) : writeOnes arr [] = arr := rfl

theorem writeOnes_cons (arr : List ℕ) (j : ℕ) (idxs : List ℕ) :
    writeOnes arr (j :: idxs) = writeOnes (arr.set j 1) idxs := rfl

theorem writeOnes_length (arr : List ℕ) (idxs : List ℕ) :
    (writeOnes arr idxs).length = arr.length := by
  induction idxs generalizing arr with
  | nil => rfl
  | cons j idxs ih => rw [writeOnes_cons, ih, List.length_set]

theorem getD_set_ne_zero (l : List ℕ) (i j : ℕ) (h : l.getD i 0 ≠ 0) :
    (l.set j 1).getD i 0 ≠ 0 := by
  induction l generalizing i j with
  | nil => simp [List.getD] at h
  | cons x xs ih =>
    cases j with
    | zero =>
      cases i with
      | zero => simp [List.getD]
      | succ i => simpa [List.getD] using h
    | succ j =>
      cases i with
      | zero => simpa [List.getD] using h
      | succ i =>
        simp only [List.set, List.getD_cons_succ] at h ⊢
        exact ih i j h

theorem getD_set_one (l : List ℕ) (i j : ℕ) (h : l.getD i 0 = 1) :
    (l.set j 1).getD i 0 = 1 := by
  induction l generalizing i j with
  | nil => simp [List.getD] at h
  | cons x xs ih =>
    cases j with
    | zero =>
      cases i with
      | zero => simp [List.getD]
      | succ i => simpa [List.getD] using h
    | succ j =>
      cases i with
      | zero => simpa [List.getD] using h
      | succ i =>
        simp only [List.set, List.getD_cons_succ] at h ⊢
        exact ih i j h

theorem getD_set_self (l : List ℕ) (j : ℕ) (h : j < l.length) :
    (l.set j 1).getD j 0 = 1 := by
  induction l generalizing j with
  | nil => simp at h
  | cons x xs ih =>
    cases j with
    | zero => simp [List.getD]
    | succ j =>
      simp only [List.set, List.getD_cons_succ]
      exact ih j (by simpa using h)

theorem set_one_of_getD (l : List ℕ) (j : ℕ) (h : l.getD j 0 = 1) :
    l.set j 1 = l := by
  induction l generalizing j with
  | nil => rfl
  | cons x xs ih =>
    cases j with
    | zero => simp_all [List.getD]
    | succ j =>
      simp only [List.getD_cons_succ] at h
      simp [List.set, ih j h]

theorem set_of_length_le (l : List ℕ) (j : ℕ) (h : l.length ≤ j) :
    l.set j 1 = l := by
  induction l generalizing j with
  | nil => rfl
  | cons x xs ih =>
    cases j with
    | zero => simp at h
    | succ j => simp [List.set, ih j (by simpa using h)]

theorem writeOnes_getD_ne_zero (arr : List ℕ) (idxs : List ℕ) (i : ℕ)
    (h : arr.getD i 0 ≠ 0) : (writeOnes arr idxs).getD i 0 ≠ 0 := by
  induction idxs generalizing arr with
  | nil => exact h
  | cons j idxs ih =>
    rw [writeOnes_cons]
    exact ih _ (getD_set_ne_zero _ _ _ h)

theorem writeOnes_getD_one (arr : List ℕ) (idxs : List ℕ) (i : ℕ)
    (h : arr.getD i 0 = 1) : (writeOnes arr idxs).getD i 0 = 1 := by
  induction idxs generalizing arr with
  | nil => exact h
  | cons j idxs ih =>
    rw [writeOnes_cons]
    exact ih _ (getD_set_one _ _ _ h)

theorem writeOnes_getD_mem (arr : List ℕ) (idxs : List ℕ) (j : ℕ)
    (hmem : j ∈ idxs) (hlt : j < arr.length) :
    (writeOnes arr idxs).getD j 0 = 1 := by
  induction idxs generalizing arr with
  | nil => cases hmem
  | cons a idxs ih =>
    rw [writeOnes_cons]
    rcases List.mem_cons.mp hmem with rfl | hmem
    · exact writeOnes_getD_one _ _ _ (getD_set_self _ _ hlt)
    · exact ih _ hmem (by rwa [List.length_set])

theorem writeOnes_of_getD (arr : List ℕ) (idxs : List ℕ)
    (h : ∀ j ∈ idxs, j < arr.length → arr.getD j 0 = 1) :
    writeOnes arr idxs = arr := by
  induction idxs generalizing arr with
  | nil => rfl
  | cons a idxs ih =>
    rw [writeOnes_cons]
    have hset : arr.set a 1 = arr := by
      rcases lt_or_le a arr.length with hlt | hle
      · exact set_one_of_getD _ _ (h a (.head _) hlt)
      · exact set_of_length_le _ _ hle
    rw [hset]
    exact ih arr (fun j hj => h j (.tail _ hj))

theorem writeOnes_idem (arr : List ℕ) (idxs : List ℕ) :
    writeOnes (writeOnes arr idxs) idxs = writeOnes arr idxs := by
  apply writeOnes_of_getD
  intro j hj hlt
  exact writeOnes_getD_mem arr idxs j hj (by rwa [writeOnes_length] at hlt)

theorem sum_set_le (l : List ℕ) (j : ℕ) : (l.set j 1).sum ≤ l.sum + 1 := by
  induction l generalizing j with
  | nil => simp
  | cons x xs ih =>
    cases j with
    | zero => simp [List.set]; omega
    | succ j =>
      simp only [List.set, List.sum_cons]
      have := ih j
      omega

theorem writeOnes_sum_le (arr : List ℕ) (idxs : List ℕ) :
    (writeOnes arr idxs).sum ≤ arr.sum + idxs.length := by
  induction idxs generalizing arr with
  | nil => simp [writeOnes_nil]
  | cons a idxs ih =>
    rw [writeOnes_cons]
    have h1 := ih (arr.set a 1)
    have h2 := sum_set_le arr a
    simp only [List.length_cons]
    omega

theorem sum_pos_of_getD (l : List ℕ) (i : ℕ) (h : l.getD i 0 ≠ 0) :
    0 < l.sum := by
  induction l generalizing i with
  | nil => simp [List.getD] at h
  | cons x xs ih =>
    cases i with
    | zero =>
      simp only [List.getD_cons_zero] at h
      simp only [List.sum_cons]
      omega
    | succ i =>
      simp only [List.getD_cons_succ] at h
      have := ih i h
      simp only [List.sum_cons]
      omega

end BitListLemmas

section BloomFilterLemmas

theorem BloomFilter.add_size (H : String → ℕ → ℕ) (bf : BloomFilter)
    (item : String) : (bf.add H item).size = bf.size := rfl

theorem BloomFilter.add_hash_count (H : String → ℕ → ℕ) (bf : BloomFilter)
    (item : String) : (bf.add H item).hash_count = bf.hash_count := rfl

theorem BloomFilter.add_item_count (H : String → ℕ → ℕ) (bf : BloomFilter)
    (item : String) : (bf.add H item).item_count = bf.item_count + 1 := rfl

theorem BloomFilter.add_bit_length (H : String → ℕ → ℕ) (bf : BloomFilter)
    (item : String) :
    (bf.add H item).bit_array.length = bf.bit_array.length :=
  writeOnes_length _ _

theorem BloomFilter.add_multiple_nil (H : String → ℕ → ℕ) (bf : BloomFilter) :
    bf.add_multiple H [] = bf := rfl

theorem BloomFilter.add_multiple_cons (H : String → ℕ → ℕ) (bf : BloomFilter)
    (x : String) (xs : List String) :
    bf.add_multiple H (x :: xs) = (bf.add H x).add_multiple H xs := rfl

theorem BloomFilter.add_multiple_size (H : String → ℕ → ℕ) (bf : BloomFilter)
    (items : List String) : (bf.add_multiple H items).size = bf.size := by
  induction items generalizing bf with
  | nil => rfl
  | cons x xs ih => rw [BloomFilter.add_multiple_cons, ih, BloomFilter.add_size]

theorem BloomFilter.add_multiple_hash_count (H : String → ℕ → ℕ)
    (bf : BloomFilter) (items : List String) :
    (bf.add_multiple H items).hash_count = bf.hash_count := by
  induction items generalizing bf with
  | nil => rfl
  | cons x xs ih =>
    rw [BloomFilter.add_multiple_cons, ih, BloomFilter.add_hash_count]

theorem BloomFilter.add_multiple_item_count (H : String → ℕ → ℕ)
    (bf : BloomFilter) (items : List String) :
    (bf.add_multiple H items).item_count = bf.item_count + items.length := by
  induction items generalizing bf with
  | nil => rfl
  | cons x xs ih =>
    rw [BloomFilter.add_multiple_cons, ih, BloomFilter.add_item_count,
      List.length_cons]
    omega

theorem BloomFilter.add_multiple_bit_length (H : String → ℕ → ℕ)
    (bf : BloomFilter) (items : List String) :
    (bf.add_multiple H items).bit_array.length = bf.bit_array.length := by
  induction items generalizing bf with
  | nil => rfl
  | cons x xs ih =>
    rw [BloomFilter.add_multiple_cons, ih, BloomFilter.add_bit_length]

theorem BloomFilter.add_getD_ne_zero (H : String → ℕ → ℕ) (bf : BloomFilter)
    (item : String) (i : ℕ) (h : bf.bit_array.getD i 0 ≠ 0) :
    (bf.add H item).bit_array.getD i 0 ≠ 0 :=
  writeOnes_getD_ne_zero _ _ _ h

theorem BloomFilter.add_multiple_getD_ne_zero (H : String → ℕ → ℕ)
    (bf : BloomFilter) (items : List String) (i : ℕ)
    (h : bf.bit_array.getD i 0 ≠ 0) :
    (bf.add_multiple H items).bit_array.getD i 0 ≠ 0 := by
  induction items generalizing bf with
  | nil => exact h
  | cons x xs ih =>
    rw [BloomFilter.add_multiple_cons]
    exact ih _ (BloomFilter.add_getD_ne_zero H bf x i h)

theorem BloomFilter.add_getD_hash (H : String → ℕ → ℕ) (bf : BloomFilter)
    (item : String) (hs : 0 < bf.size)
    (hlen : bf.bit_array.length = bf.size) (i : ℕ) (hi : i < bf.hash_count) :
    (bf.add H item).bit_array.getD (hashIdx H bf.size item i) 0 = 1 := by
  apply writeOnes_getD_mem
  · exact List.mem_map_of_mem _ (List.mem_range.mpr hi)
  · rw [hlen]
    exact Nat.mod_lt _ hs

theorem BloomFilter.contains_iff (H : String → ℕ → ℕ) (bf : BloomFilter)
    (item : String) :
    bf.contains H item = true ↔
      ∀ i < bf.hash_count, bf.bit_array.getD (hashIdx H bf.size item i) 0 ≠ 0 := by
  simp [BloomFilter.contains, List.all_eq_true, List.mem_range]

theorem BloomFilter.add_count_le (H : String → ℕ → ℕ) (bf : BloomFilter)
    (item : String) :
    (bf.add H item).count_set_bits ≤ bf.count_set_bits + bf.hash_count := by
  have h := writeOnes_sum_le bf.bit_array
    ((List.range bf.hash_count).map (hashIdx H bf.size item))
  simpa [BloomFilter.count_set_bits, BloomFilter.add] using h

theorem BloomFilter.add_multiple_count_le (H : String → ℕ → ℕ)
    (bf : BloomFilter) (items : List String) :
    (bf.add_multiple H items).count_set_bits ≤
      bf.count_set_bits + bf.hash_count * items.length := by
  induction items generalizing bf with
  | nil => simp [BloomFilter.add_multiple_nil]
  | cons x xs ih =>
    rw [BloomFilter.add_multiple_cons, List.length_cons]
    have h1 := ih (bf.add H x)
    have h2 := BloomFilter.add_count_le H bf x
    rw [BloomFilter.add_hash_count] at h1
    rw [Nat.mul_succ]
    linarith

end BloomFilterLemmas

/-- Embeds one element of `np.logical_and(...).astype(int)`: `1` when both
entries are nonzero, else `0`. -/
def logicalAnd (a b : ℕ) : ℕ := if a ≠ 0 ∧ b ≠ 0 then 1 else 0

/-- Embeds one element of `np.logical_or(...).astype(int)`: `1` when either
entry is nonzero, else `0`. -/
def logicalOr (a b : ℕ) : ℕ := if a ≠ 0 ∨ b ≠ 0 then 1 else 0

/-- Embeds `BloomFilter.intersect`: raises `ValueError` when the sizes or
hash counts differ, otherwise returns a fresh filter whose bit array is the
element-wise logical AND, with `item_count = 0` from the fresh construction. -/
def BloomFilter.intersect (bf other : BloomFilter) : Except String BloomFilter :=
  if bf.size ≠ other.size ∨ bf.hash_count ≠ other.hash_count then
    Except.error "Bloom filters must have same size and hash count"
  else
    Except.ok ⟨bf.size, bf.hash_count,
      List.zipWith logicalAnd bf.bit_array other.bit_array, 0⟩

/-- Embeds `BloomFilter.union`: raises `ValueError` when the sizes or hash
counts differ, otherwise returns a fresh filter whose bit array is the
element-wise logical OR, with `item_count = 0` from the fresh construction. -/
def BloomFilter.union (bf other : BloomFilter) : Except String BloomFilter :=
  if bf.size ≠ other.size ∨ bf.hash_count ≠ other.hash_count then
    Except.error "Bloom filters must have same size and hash count"
  else
    Except.ok ⟨bf.size, bf.hash_count,
      List.zipWith logicalOr bf.bit_array other.bit_array, 0⟩

/-- Embeds `BloomFilter.estimate_false_positive_rate`: `0.0` for an empty
filter, otherwise the closed form `(1 - e^(-k*n/m))^k` with `k = hash_count`,
`n = item_count`, `m = size`, over exact reals. -/
noncomputable def BloomFilter.estimate_false_positive_rate (bf : BloomFilter) : ℝ :=
  if bf.item_count = 0 then 0
  else (1 - Real.exp (-(bf.hash_count : ℝ) * bf.item_count / bf.size)) ^ bf.hash_count

/-- The state of `BloomFilter` over raw Python integer parameters, used to
settle the construction-time claim: `__init__` stores `size` and
`hash_count` verbatim and allocates `np.zeros(size)`. -/
structure BloomFilterRaw where
  size : ℤ
  hash_count : ℤ
  bit_array : List ℕ
  item_count : ℕ
deriving DecidableEq

/-- Embeds `BloomFilter.__init__` on raw integer arguments. The body performs
no validation of its own; the only failure is `np.zeros(size)` raising
`ValueError("negative dimensions are not allowed")` for a negative `size`.
All other values, `hash_count ≤ 0` included, are stored unchanged. -/
def BloomFilterRaw.init (size hash_count : ℤ) : Except String BloomFilterRaw :=
  if size < 0 then Except.error "negative dimensions are not allowed"
  else Except.ok ⟨size, hash_count, List.replicate size.toNat 0, 0⟩

theorem zipWith_getD (f : ℕ → ℕ → ℕ) (l1 l2 : List ℕ) (i : ℕ)
    (hlen : l1.length = l2.length) (hi : i < l1.length) :
    (List.zipWith f l1 l2).getD i 0 = f (l1.getD i 0) (l2.getD i 0) := by
  induction l1 generalizing l2 i with
  | nil => simp at hi
  | cons x xs ih =>
    cases l2 with
    | nil => simp at hlen
    | cons y ys =>
      cases i with
      | zero => simp [List.getD]
      | succ i =>
        simp only [List.zipWith_cons_cons, List.getD_cons_succ]
        exact ih ys i (by simpa using hlen) (by simpa using hi)

/-- C3: after an item has been inserted with `add`, `contains` returns `true`
(no false negatives), for any positive `size` and `hash_count`, any
hash function `H`, and any items inserted before (`pre`) or after (`post`)
the item. -/
theorem contains_after_add (H : String → ℕ → ℕ) (size hash_count : ℕ)
    (hs : 0 < size) (hk : 0 < hash_count) (pre post : List String)
    (item : String) :
    BloomFilter.contains H
      (BloomFilter.add_multiple H
        (BloomFilter.add H
          (BloomFilter.add_multiple H (BloomFilter.empty size hash_count) pre)
          item)
        post)
      item = true := by
  set bf0 := BloomFilter.add_multiple H (BloomFilter.empty size hash_count) pre
    with hbf0
  have hsize0 : bf0.size = size := by
    rw [hbf0, BloomFilter.add_multiple_size]
    rfl
  have hhc0 : bf0.hash_count = hash_count := by
    rw [hbf0, BloomFilter.add_multiple_hash_count]
    rfl
  have hlen0 : bf0.bit_array.length = bf0.size := by
    rw [hbf0, BloomFilter.add_multiple_bit_length, hsize0]
    simp [BloomFilter.empty]
  set bf1 := BloomFilter.add H bf0 item with hbf1
  set bf2 := BloomFilter.add_multiple H bf1 post with hbf2
  have hsize2 : bf2.size = size := by
    rw [hbf2, BloomFilter.add_multiple_size, hbf1, BloomFilter.add_size, hsize0]
  have hhc2 : bf2.hash_count = hash_count := by
    rw [hbf2, BloomFilter.add_multiple_hash_count, hbf1,
      BloomFilter.add_hash_count, hhc0]
  rw [BloomFilter.contains_iff, hsize2, hhc2]
  intro i hi
  apply BloomFilter.add_multiple_getD_ne_zero
  have h1 : bf1.bit_array.getD (hashIdx H bf0.size item i) 0 = 1 := by
    apply BloomFilter.add_getD_hash H bf0 item (by rwa [hsize0]) hlen0 i
    rw [hhc0]
    exact hi
  rw [hsize0] at h1
  rw [h1]
  exact one_ne_zero

/-- Witness for C3 at a concrete hash function, size 5, hash count 2,
an item inserted between two other insertions. -/
theorem contains_after_add_witness :
    0 < 5 ∧ 0 < 2 ∧
      BloomFilter.contains (fun s i => s.length + i)
        (BloomFilter.add_multiple (fun s i => s.length + i)
          (BloomFilter.add (fun s i => s.length + i)
            (BloomFilter.add_multiple (fun s i => s.length + i)
              (BloomFilter.empty 5 2) ["1.2.3.4"])
            "evil.com")
          ["malware.exe"])
        "evil.com" = true :=
  ⟨by decide, by decide,
    contains_after_add (fun s i => s.length + i) 5 2 (by decide) (by decide)
      ["1.2.3.4"] ["malware.exe"] "evil.com"⟩

/-- C7: for a filter built with positive `size` and `hash_count` by any
non-empty sequence of insertions, `count_set_bits` is strictly positive and
at most `hash_count * item_count`. -/
theorem count_set_bits_bounds (H : String → ℕ → ℕ) (size hash_count : ℕ)
    (hs : 0 < size) (hk : 0 < hash_count) (items : List String)
    (hne : items ≠ []) :
    0 < ((BloomFilter.empty size hash_count).add_multiple H items).count_set_bits ∧
    ((BloomFilter.empty size hash_count).add_multiple H items).count_set_bits ≤
      hash_count *
        ((BloomFilter.empty size hash_count).add_multiple H items).item_count := by
  constructor
  · cases items with
    | nil => exact absurd rfl hne
    | cons y rest =>
      rw [BloomFilter.add_multiple_cons]
      set bf1 := BloomFilter.add H (BloomFilter.empty size hash_count) y with hbf1
      have hbit : bf1.bit_array.getD (hashIdx H size y 0) 0 = 1 := by
        rw [hbf1]
        exact BloomFilter.add_getD_hash H _ y hs (by simp [BloomFilter.empty]) 0 hk
      apply sum_pos_of_getD _ (hashIdx H size y 0)
      apply BloomFilter.add_multiple_getD_ne_zero
      rw [hbit]
      exact one_ne_zero
  · have h := BloomFilter.add_multiple_count_le H
      (BloomFilter.empty size hash_count) items
    have hcount : (BloomFilter.empty size hash_count).count_set_bits = 0 := by
      simp [BloomFilter.empty, BloomFilter.count_set_bits]
    have hhc : (BloomFilter.empty size hash_count).hash_count = hash_count := rfl
    have hic : ((BloomFilter.empty size hash_count).add_multiple H items).item_count
        = items.length := by
      rw [BloomFilter.add_multiple_item_count]
      simp [BloomFilter.empty]
    rw [hic]
    rw [hcount, hhc] at h
    simpa using h

/-- Witness for C7 at a concrete hash function, size 5, hash count 2 and a
two-item insertion sequence. -/
theorem count_set_bits_bounds_witness :
    0 < 5 ∧ 0 < 2 ∧ (["a", "bb"] : List String) ≠ [] ∧
      (0 < ((BloomFilter.empty 5 2).add_multiple (fun s i => s.length + i)
          ["a", "bb"]).count_set_bits ∧
        ((BloomFilter.empty 5 2).add_multiple (fun s i => s.length + i)
          ["a", "bb"]).count_set_bits ≤
          2 * ((BloomFilter.empty 5 2).add_multiple (fun s i => s.length + i)
            ["a", "bb"]).item_count) :=
  ⟨by decide, by decide, by decide,
    count_set_bits_bounds (fun s i => s.length + i) 5 2 (by decide) (by decide)
      ["a", "bb"] (by decide)⟩

/-- C9: re-inserting the same item leaves the bit array unchanged
(insertion is idempotent on the bits), while `item_count` increments by one
on every call to `add`, repeated identical items included. -/
theorem add_idempotent_bits (H : String → ℕ → ℕ) (bf : BloomFilter)
    (item : String) :
    ((bf.add H item).add H item).bit_array = (bf.add H item).bit_array ∧
      (∀ bf2 : BloomFilter, ∀ item2 : String,
        (bf2.add H item2).item_count = bf2.item_count + 1) :=
  ⟨writeOnes_idem bf.bit_array
      ((List.range bf.hash_count).map (hashIdx H bf.size item)),
    fun _ _ => rfl⟩

/-- C10: `intersect` and `union` fail exactly when the two filters differ in
`size` or `hash_count`; on success the result keeps the common `size` and
`hash_count` and its bit at each index `i < size` is the logical AND
(respectively OR) of the two input bits, the inputs themselves being
untouched (the operations build a fresh filter from fresh arrays). -/
theorem intersect_union_spec (bf1 bf2 : BloomFilter)
    (h1 : bf1.bit_array.length = bf1.size)
    (h2 : bf2.bit_array.length = bf2.size) :
    ((∃ r, bf1.intersect bf2 = Except.ok r) ↔
      bf1.size = bf2.size ∧ bf1.hash_count = bf2.hash_count)
    ∧ ((∃ r, bf1.union bf2 = Except.ok r) ↔
      bf1.size = bf2.size ∧ bf1.hash_count = bf2.hash_count)
    ∧ (∀ r, bf1.intersect bf2 = Except.ok r →
        r.size = bf1.size ∧ r.hash_count = bf1.hash_count ∧
        r.bit_array.length = bf1.size ∧
        ∀ i, i < bf1.size → r.bit_array.getD i 0 =
          (if bf1.bit_array.getD i 0 ≠ 0 ∧ bf2.bit_array.getD i 0 ≠ 0
            then 1 else 0))
    ∧ (∀ r, bf1.union bf2 = Except.ok r →
        r.size = bf1.size ∧ r.hash_count = bf1.hash_count ∧
        r.bit_array.length = bf1.size ∧
        ∀ i, i < bf1.size → r.bit_array.getD i 0 =
          (if bf1.bit_array.getD i 0 ≠ 0 ∨ bf2.bit_array.getD i 0 ≠ 0
            then 1 else 0)) := by
  by_cases hc : bf1.size = bf2.size ∧ bf1.hash_count = bf2.hash_count
  · have hnot : ¬(bf1.size ≠ bf2.size ∨ bf1.hash_count ≠ bf2.hash_count) := by
      push_neg
      exact hc
    have hlen12 : bf1.bit_array.length = bf2.bit_array.length := by
      rw [h1, h2, hc.1]
    have hzip : ∀ f : ℕ → ℕ → ℕ,
        (List.zipWith f bf1.bit_array bf2.bit_array).length = bf1.size := by
      intro f
      rw [List.length_zipWith, hlen12, min_self, h2, hc.1]
    refine ⟨?_, ?_, ?_, ?_⟩
    · simp [BloomFilter.intersect, hnot, hc]
    · simp [BloomFilter.union, hnot, hc]
    · intro r hr
      simp only [BloomFilter.intersect, if_neg hnot, Except.ok.injEq] at hr
      subst hr
      refine ⟨rfl, rfl, hzip _, ?_⟩
      intro i hi
      have := zipWith_getD logicalAnd bf1.bit_array bf2.bit_array i hlen12
        (by rwa [h1])
      rw [this]
      rfl
    · intro r hr
      simp only [BloomFilter.union, if_neg hnot, Except.ok.injEq] at hr
      subst hr
      refine ⟨rfl, rfl, hzip _, ?_⟩
      intro i hi
      have := zipWith_getD logicalOr bf1.bit_array bf2.bit_array i hlen12
        (by rwa [h1])
      rw [this]
      rfl
  · have hyes : bf1.size ≠ bf2.size ∨ bf1.hash_count ≠ bf2.hash_count := by
      by_contra hno
      push_neg at hno
      exact hc ⟨hno.1, hno.2⟩
    refine ⟨?_, ?_, ?_, ?_⟩
    · simp [BloomFilter.intersect, if_pos hyes, hc]
    · simp [BloomFilter.union, if_pos hyes, hc]
    · intro r hr
      simp [BloomFilter.intersect, if_pos hyes] at hr
    · intro r hr
      simp [BloomFilter.union, if_pos hyes] at hr

/-- Witness for C10: two matching filters of size 2 and a mismatched pair. -/
theorem intersect_union_spec_witness :
    ([1, 0] : List ℕ).length = 2 ∧ ([1, 1] : List ℕ).length = 2 ∧
      ((∃ r, BloomFilter.intersect ⟨2, 3, [1, 0], 1⟩ ⟨2, 3, [1, 1], 1⟩ =
        Except.ok r) ↔ (2 = 2 ∧ 3 = 3)) :=
  ⟨by decide, by decide,
    ((intersect_union_spec ⟨2, 3, [1, 0], 1⟩ ⟨2, 3, [1, 1], 1⟩
      (by decide) (by decide)).1)⟩

/-- C8: the estimated false-positive rate is `0.0` for an empty filter,
equals `(1 - e^(-k*n/m))^k` once items are present, and is strictly
increasing in `item_count` for fixed positive `size` and `hash_count`. -/
theorem estimate_fpr_spec (m k : ℕ) (hm : 0 < m) (hk : 0 < k) :
    (∀ arr : List ℕ,
      BloomFilter.estimate_false_positive_rate ⟨m, k, arr, 0⟩ = 0)
    ∧ (∀ (arr : List ℕ) (n : ℕ), 0 < n →
      BloomFilter.estimate_false_positive_rate ⟨m, k, arr, n⟩ =
        (1 - Real.exp (-(k : ℝ) * n / m)) ^ k)
    ∧ (∀ (arr1 arr2 : List ℕ) (n1 n2 : ℕ), n1 < n2 →
      BloomFilter.estimate_false_positive_rate ⟨m, k, arr1, n1⟩ <
        BloomFilter.estimate_false_positive_rate ⟨m, k, arr2, n2⟩) := by
  have hform : ∀ (arr : List ℕ) (n : ℕ),
      BloomFilter.estimate_false_positive_rate ⟨m, k, arr, n⟩ =
        (1 - Real.exp (-(k : ℝ) * n / m)) ^ k := by
    intro arr n
    rcases Nat.eq_zero_or_pos n with rfl | hn
    · simp [BloomFilter.estimate_false_positive_rate, Real.exp_zero,
        zero_pow hk.ne']
    · simp [BloomFilter.estimate_false_positive_rate, hn.ne']
  have hbase : ∀ n : ℕ, Real.exp (-(k : ℝ) * n / m) ≤ 1 := by
    intro n
    rw [← Real.exp_zero]
    apply Real.exp_le_exp.mpr
    have hnum : -(k : ℝ) * n ≤ 0 := by
      rw [neg_mul]
      exact neg_nonpos.mpr (by positivity)
    have hden : (0 : ℝ) ≤ m := Nat.cast_nonneg m
    exact div_nonpos_iff.mpr (Or.inr ⟨hnum, hden⟩)
  refine ⟨fun arr => by simp [BloomFilter.estimate_false_positive_rate],
    fun arr n hn => by
      simp [BloomFilter.estimate_false_positive_rate, hn.ne'], ?_⟩
  intro arr1 arr2 n1 n2 hlt
  rw [hform arr1 n1, hform arr2 n2]
  have hmr : (0 : ℝ) < m := by exact_mod_cast hm
  have hkr : (0 : ℝ) < k := by exact_mod_cast hk
  have hn12 : (n1 : ℝ) < n2 := by exact_mod_cast hlt
  have key : -(k : ℝ) * n2 / m < -(k : ℝ) * n1 / m := by
    rw [neg_mul, neg_mul, neg_div, neg_div, neg_lt_neg_iff]
    gcongr
  have hexp : Real.exp (-(k : ℝ) * n2 / m) < Real.exp (-(k : ℝ) * n1 / m) :=
    Real.exp_lt_exp.mpr key
  have hlt2 : 1 - Real.exp (-(k : ℝ) * n1 / m) <
      1 - Real.exp (-(k : ℝ) * n2 / m) := by linarith
  have h0 : 0 ≤ 1 - Real.exp (-(k : ℝ) * n1 / m) := by
    have := hbase n1
    linarith
  exact pow_lt_pow_left₀ hlt2 h0 hk.ne'

/-- Witness for C8 at size 10, hash count 2, comparing 0, 1 and 2 items. -/
theorem estimate_fpr_spec_witness :
    0 < 10 ∧ 0 < 2 ∧
      BloomFilter.estimate_false_positive_rate ⟨10, 2, List.replicate 10 0, 0⟩
        = 0 ∧
      BloomFilter.estimate_false_positive_rate ⟨10, 2, [], 1⟩ <
        BloomFilter.estimate_false_positive_rate ⟨10, 2, [], 2⟩ :=
  ⟨by decide, by decide,
    (estimate_fpr_spec 10 2 (by decide) (by decide)).1 _,
    (estimate_fpr_spec 10 2 (by decide) (by decide)).2.2 [] [] 1 2 (by decide)⟩

/-- C5 counterexample: construction with `size = 0` and `hash_count = 0`
succeeds, returning a filter that stores both non-positive values unchanged,
so non-positive parameters are not rejected at construction time. -/
theorem init_accepts_nonpositive :
    BloomFilterRaw.init 0 0 = Except.ok ⟨0, 0, [], 0⟩ := by
  norm_num [BloomFilterRaw.init]

/-- C5 amended: `__init__` validates nothing itself; a negative `size` fails
only because `np.zeros` rejects negative dimensions, while `size = 0` and
every `hash_count` (non-positive values included) are accepted with the
given values stored unchanged and unclamped. -/
theorem init_spec (size hash_count : ℤ) :
    (size < 0 → BloomFilterRaw.init size hash_count =
      Except.error "negative dimensions are not allowed")
    ∧ (0 ≤ size → BloomFilterRaw.init size hash_count =
      Except.ok ⟨size, hash_count, List.replicate size.toNat 0, 0⟩) := by
  constructor
  · intro h
    simp [BloomFilterRaw.init, h]
  · intro h
    simp [BloomFilterRaw.init, not_lt.mpr h]

/-- Witness for C5 amended: a negative size fails, while size 3 with a
negative hash count succeeds unclamped. -/
theorem init_spec_witness :
    (-1 : ℤ) < 0 ∧ (0 : ℤ) ≤ 3 ∧
      BloomFilterRaw.init (-1) 7 =
        Except.error "negative dimensions are not allowed" ∧
      BloomFilterRaw.init 3 (-5) =
        Except.ok ⟨3, -5, List.replicate 3 0, 0⟩ :=
  ⟨by decide, by decide, (init_spec (-1) 7).1 (by decide),
    (init_spec 3 (-5)).2 (by decide)⟩

/-- Embeds the inner helper `estimate_items` of
`OverlapCalculator.estimate_set_overlap`: `0` when `set_bits == 0`,
otherwise `-(bloom_size / hash_count) * ln(1 - r)` where `r = set_bits /
bloom_size` is replaced by `0.999` exactly when `r >= 1.0`. The argument is
an integer (the derived union count can be negative in Python). -/
noncomputable def estimate_items (bloom_size hash_count : ℕ) (set_bits : ℤ) : ℝ :=
  if set_bits = 0 then 0
  else
    let frac : ℝ := (set_bits : ℝ) / (bloom_size : ℝ);
    let fracC : ℝ := if 1 ≤ frac then 0.999 else frac;
    -((bloom_size : ℝ) / (hash_count : ℝ)) * Real.log (1 - fracC)

/-- Embeds `OverlapCalculator.estimate_set_overlap`: inclusion-exclusion on
estimated item counts, finished by `int(max(0, estimated_overlap))`. The
Python `int()` truncates toward zero, which on the non-negative
`max(0, ...)` is the floor. -/
noncomputable def estimate_set_overlap
    (overlap_bits bloom1_bits bloom2_bits bloom_size hash_count : ℕ) : ℤ :=
  let n1 := estimate_items bloom_size hash_count (bloom1_bits : ℤ)
  let n2 := estimate_items bloom_size hash_count (bloom2_bits : ℤ)
  let union_bits : ℤ := (bloom1_bits : ℤ) + (bloom2_bits : ℤ) - (overlap_bits : ℤ)
  let n_union := estimate_items bloom_size hash_count union_bits
  ⌊max 0 (n1 + n2 - n_union)⌋

/-- The item-count back-estimate exactly as claim C1 words it: the ratio
clamped to at most `0.999` (a `min`, applied to every ratio), before the
logarithm. Kept separate from `estimate_items` so the two readings can be
compared. -/
noncomputable def estimate_items_claimed (bloom_size hash_count : ℕ)
    (set_bits : ℤ) : ℝ :=
  if set_bits = 0 then 0
  else -((bloom_size : ℝ) / (hash_count : ℝ)) *
    Real.log (1 - min ((set_bits : ℝ) / (bloom_size : ℝ)) 0.999)

/-- The overlap estimate exactly as claim C1 words it:
`max(0, round(n1 + n2 - n_union))` over the claimed back-estimate. -/
noncomputable def estimate_set_overlap_claimed
    (overlap_bits bloom1_bits bloom2_bits bloom_size hash_count : ℕ) : ℤ :=
  max 0 (round (estimate_items_claimed bloom_size hash_count (bloom1_bits : ℤ) +
    estimate_items_claimed bloom_size hash_count (bloom2_bits : ℤ) -
    estimate_items_claimed bloom_size hash_count
      ((bloom1_bits : ℤ) + (bloom2_bits : ℤ) - (overlap_bits : ℤ))))

theorem log_thousand_lt : Real.log 1000 < 7 := by
  rw [Real.log_lt_iff_lt_exp (by norm_num)]
  have h := Real.exp_one_gt_d9
  have h7 : (2.7182818283 : ℝ) ^ 7 < Real.exp 1 ^ 7 :=
    pow_lt_pow_left₀ h (by norm_num) (by norm_num)
  have hval : (1000 : ℝ) < 2.7182818283 ^ 7 := by norm_num
  calc (1000 : ℝ) < 2.7182818283 ^ 7 := hval
    _ < Real.exp 1 ^ 7 := h7
    _ = Real.exp 7 := by rw [Real.exp_one_pow]; norm_num

theorem log_thousand_gt : (6.5 : ℝ) < Real.log 1000 := by
  rw [Real.lt_log_iff_exp_lt (by norm_num)]
  have hsq : Real.exp 6.5 * Real.exp 6.5 = Real.exp 13 := by
    rw [← Real.exp_add]
    norm_num
  have h13 : Real.exp 13 < 1000000 := by
    have h := Real.exp_one_lt_d9
    have hpow : Real.exp 1 ^ 13 < (2.7182818286 : ℝ) ^ 13 :=
      pow_lt_pow_left₀ h (le_of_lt (Real.exp_pos 1)) (by norm_num)
    have heq : Real.exp 1 ^ 13 = Real.exp 13 := by
      rw [Real.exp_one_pow]
      norm_num
    rw [heq] at hpow
    calc Real.exp 13 < (2.7182818286 : ℝ) ^ 13 := hpow
      _ < 1000000 := by norm_num
  nlinarith [Real.exp_pos (6.5 : ℝ)]

theorem estimate_items_at_one : estimate_items 1 1 1 = Real.log 1000 := by
  rw [estimate_items]
  norm_num
  rw [show (1 : ℝ) / 1000 = (1000 : ℝ)⁻¹ by norm_num, Real.log_inv, neg_neg]

theorem estimate_items_at_zero (m k : ℕ) : estimate_items m k 0 = 0 := by
  simp [estimate_items]

theorem estimate_items_claimed_at_one :
    estimate_items_claimed 1 1 1 = Real.log 1000 := by
  rw [estimate_items_claimed]
  norm_num
  rw [show (1 : ℝ) / 1000 = (1000 : ℝ)⁻¹ by norm_num, Real.log_inv, neg_neg]

theorem estimate_items_claimed_at_zero (m k : ℕ) :
    estimate_items_claimed m k 0 = 0 := by
  simp [estimate_items_claimed]

/-- C1 counterexample: at `(overlap_bits, bloom1_bits, bloom2_bits,
bloom_size, hash_count) = (1, 1, 0, 1, 1)` the estimate reduces to
`ln 1000 ≈ 6.9`; the code truncates it to `6` while the claimed
`max(0, round(...))` is `7`, so the rounding reading of the claim is false. -/
theorem estimate_set_overlap_ne_claimed :
    estimate_set_overlap 1 1 0 1 1 = 6 ∧
      estimate_set_overlap_claimed 1 1 0 1 1 = 7 := by
  have hgt := log_thousand_gt
  have hlt := log_thousand_lt
  constructor
  · have hcode : estimate_set_overlap 1 1 0 1 1 = ⌊max 0 (Real.log 1000)⌋ := by
      rw [estimate_set_overlap]
      simp only [Nat.cast_one, Nat.cast_zero]
      norm_num [estimate_items_at_one, estimate_items_at_zero]
    rw [hcode, max_eq_right (by linarith : (0 : ℝ) ≤ Real.log 1000)]
    rw [Int.floor_eq_iff]
    constructor
    · push_cast
      linarith
    · push_cast
      linarith
  · have hclaimed : estimate_set_overlap_claimed 1 1 0 1 1 =
        max 0 (round (Real.log 1000)) := by
      rw [estimate_set_overlap_claimed]
      simp only [Nat.cast_one, Nat.cast_zero]
      norm_num [estimate_items_claimed_at_one, estimate_items_claimed_at_zero]
    rw [hclaimed]
    have hround : round (Real.log 1000) = 7 := by
      rw [round_eq, Int.floor_eq_iff]
      constructor
      · push_cast
        linarith
      · push_cast
        linarith
    rw [hround]
    norm_num

theorem floor_max_zero (x : ℝ) : ⌊max 0 x⌋ = max 0 ⌊x⌋ := by
  rcases le_total 0 x with h | h
  · rw [max_eq_right h, max_eq_right (Int.floor_nonneg.mpr h)]
  · rw [max_eq_left h, max_eq_left ?_, Int.floor_zero]
    calc ⌊x⌋ ≤ ⌊(0 : ℝ)⌋ := Int.floor_le_floor h
      _ = 0 := Int.floor_zero

/-- C1 amended: for positive `bloom_size` and `hash_count`,
`estimate_set_overlap` returns `max(0, ⌊n1 + n2 - n_union⌋)` — the floor
(Python `int()` truncation of a non-negative value), not the nearest
integer — where `n-hat(s)` is `0` at `s = 0` and otherwise
`-(m/k)·ln(1 - r)` with `r = s/m` replaced by `0.999` exactly when
`r ≥ 1.0` (ratios strictly between `0.999` and `1.0` are used as they
are, not clamped). -/
theorem estimate_set_overlap_spec (o b1 b2 m k : ℕ) (hm : 0 < m)
    (hk : 0 < k) :
    estimate_set_overlap o b1 b2 m k =
      max 0 ⌊(fun s : ℤ => if s = 0 then 0 else
          -((m : ℝ) / (k : ℝ)) *
            Real.log (1 - if 1 ≤ (s : ℝ) / (m : ℝ) then 0.999
              else (s : ℝ) / (m : ℝ))) (b1 : ℤ) +
        (fun s : ℤ => if s = 0 then 0 else
          -((m : ℝ) / (k : ℝ)) *
            Real.log (1 - if 1 ≤ (s : ℝ) / (m : ℝ) then 0.999
              else (s : ℝ) / (m : ℝ))) (b2 : ℤ) -
        (fun s : ℤ => if s = 0 then 0 else
          -((m : ℝ) / (k : ℝ)) *
            Real.log (1 - if 1 ≤ (s : ℝ) / (m : ℝ) then 0.999
              else (s : ℝ) / (m : ℝ))) ((b1 : ℤ) + (b2 : ℤ) - (o : ℤ))⌋ := by
  simp only [estimate_set_overlap, estimate_items]
  exact floor_max_zero _

/-- Witness for C1 amended at `(2, 3, 3, 10, 2)`. -/
theorem estimate_set_overlap_spec_witness :
    0 < 10 ∧ 0 < 2 ∧
      estimate_set_overlap 2 3 3 10 2 =
        max 0 ⌊(fun s : ℤ => if s = 0 then 0 else
            -(((10 : ℕ) : ℝ) / ((2 : ℕ) : ℝ)) *
              Real.log (1 - if 1 ≤ (s : ℝ) / ((10 : ℕ) : ℝ) then 0.999
                else (s : ℝ) / ((10 : ℕ) : ℝ))) ((3 : ℕ) : ℤ) +
          (fun s : ℤ => if s = 0 then 0 else
            -(((10 : ℕ) : ℝ) / ((2 : ℕ) : ℝ)) *
              Real.log (1 - if 1 ≤ (s : ℝ) / ((10 : ℕ) : ℝ) then 0.999
                else (s : ℝ) / ((10 : ℕ) : ℝ))) ((3 : ℕ) : ℤ) -
          (fun s : ℤ => if s = 0 then 0 else
            -(((10 : ℕ) : ℝ) / ((2 : ℕ) : ℝ)) *
              Real.log (1 - if 1 ≤ (s : ℝ) / ((10 : ℕ) : ℝ) then 0.999
                else (s : ℝ) / ((10 : ℕ) : ℝ)))
            (((3 : ℕ) : ℤ) + ((3 : ℕ) : ℤ) - ((2 : ℕ) : ℤ))⌋ :=
  ⟨by decide, by decide,
    estimate_set_overlap_spec 2 3 3 10 2 (by decide) (by decide)⟩

/-- Embeds `OverlapCalculator.calculate_jaccard_similarity`:
`union_bits = bloom1_bits + bloom2_bits - overlap_bits`; `0.0` when the
union count is zero, else `overlap_bits / union_bits` (exact rational
division standing for Python float division). -/
def calculate_jaccard_similarity (overlap_bits bloom1_bits bloom2_bits : ℕ) :
    ℚ :=
  let union_bits : ℤ :=
    (bloom1_bits : ℤ) + (bloom2_bits : ℤ) - (overlap_bits : ℤ)
  if union_bits = 0 then 0 else (overlap_bits : ℚ) / (union_bits : ℚ)

/-- C4: the Jaccard similarity is `overlap / (b1 + b2 - overlap)` when the
union bit count is positive, `0.0` when it is zero, and lies in `[0, 1]`
whenever `overlap_bits ≤ min(b1, b2)`. -/
theorem calculate_jaccard_spec (o b1 b2 : ℕ) :
    (0 < (b1 : ℤ) + (b2 : ℤ) - (o : ℤ) →
      calculate_jaccard_similarity o b1 b2 =
        (o : ℚ) / ((b1 : ℚ) + (b2 : ℚ) - (o : ℚ)))
    ∧ ((b1 : ℤ) + (b2 : ℤ) - (o : ℤ) = 0 →
      calculate_jaccard_similarity o b1 b2 = 0)
    ∧ (o ≤ min b1 b2 →
      0 ≤ calculate_jaccard_similarity o b1 b2 ∧
        calculate_jaccard_similarity o b1 b2 ≤ 1) := by
  refine ⟨?_, ?_, ?_⟩
  · intro h
    simp only [calculate_jaccard_similarity]
    rw [if_neg (by omega : ¬((b1 : ℤ) + (b2 : ℤ) - (o : ℤ) = 0))]
    push_cast
    ring
  · intro h
    simp only [calculate_jaccard_similarity]
    rw [if_pos h]
  · intro h
    have ho1 : o ≤ b1 := le_trans h (min_le_left _ _)
    have ho2 : o ≤ b2 := le_trans h (min_le_right _ _)
    have h1 : (o : ℤ) ≤ (b1 : ℤ) := by exact_mod_cast ho1
    have h2 : (o : ℤ) ≤ (b2 : ℤ) := by exact_mod_cast ho2
    by_cases hu : (b1 : ℤ) + (b2 : ℤ) - (o : ℤ) = 0
    · simp only [calculate_jaccard_similarity]
      rw [if_pos hu]
      norm_num
    · have hupos : 0 < (b1 : ℤ) + (b2 : ℤ) - (o : ℤ) := by omega
      simp only [calculate_jaccard_similarity]
      rw [if_neg hu]
      have huq : (0 : ℚ) < (((b1 : ℤ) + (b2 : ℤ) - (o : ℤ) : ℤ) : ℚ) := by
        exact_mod_cast hupos
      constructor
      · exact div_nonneg (by positivity) (le_of_lt huq)
      · rw [div_le_one huq]
        have hle : (o : ℤ) ≤ (b1 : ℤ) + (b2 : ℤ) - (o : ℤ) := by omega
        exact_mod_cast hle

/-- Witness for C4 at `(1, 2, 3)`: positive union, overlap within both
counts, value `1/4`. -/
theorem calculate_jaccard_spec_witness :
    (0 : ℤ) < (2 : ℕ) + (3 : ℕ) - (1 : ℕ) ∧ 1 ≤ min 2 3 ∧
      calculate_jaccard_similarity 1 2 3 = 1 / 4 ∧
      0 ≤ calculate_jaccard_similarity 1 2 3 ∧
      calculate_jaccard_similarity 1 2 3 ≤ 1 :=
  ⟨by decide, by decide,
    by
      have h := (calculate_jaccard_spec 1 2 3).1 (by decide)
      rw [h]
      norm_num,
    ((calculate_jaccard_spec 1 2 3).2.2 (by decide)).1,
    ((calculate_jaccard_spec 1 2 3).2.2 (by decide)).2⟩

/-- Modelled from the spec: §4.3 HE capability `encrypt`. The TenSEAL BFV
backend wrapped by `src/crypto/he_engine.py` is an external collaborator;
per the capability contract `decrypt(encrypt(v)) == v`, a ciphertext is
modelled by the plaintext vector it decrypts to. -/
def heEncrypt (v : List ℕ) : List ℕ := v

/-- Modelled from the spec: §4.3 HE capability `decrypt`, inverse of
`heEncrypt` under the round-trip contract. -/
def heDecrypt (c : List ℕ) : List ℕ := c

/-- Modelled from the spec: §4.3 HE capability `multiply_elementwise`, whose
contract is `decrypt(multiply(enc a, enc b))[i] = a[i] * b[i]`. -/
def heMultiply (c1 c2 : List ℕ) : List ℕ := List.zipWith (· * ·) c1 c2

/-- Embeds the state of `Party` (`src/computation/protocol.py`): a name,
the IoC list (as normalized strings, `str(ioc)`), and the optional Bloom
filter and encrypted filter, both `None` at construction. -/
structure Party where
  name : String
  ioc_list : List String
  bloom_filter : Option BloomFilter
  encrypted_bloom : Option (List ℕ)

/-- Embeds `Party.__init__`: empty IoC list, no filter, nothing encrypted. -/
def Party.init (name : String) : Party := ⟨name, [], none, none⟩

/-- Embeds `Party.set_ioc_list`. -/
def Party.set_ioc_list (p : Party) (iocs : List String) : Party :=
  { p with ioc_list := iocs }

/-- Embeds `Party.create_bloom_filter`: build a fresh filter and add every
item of the current `ioc_list` (which defaults to `[]`); the body contains
no readiness check and cannot fail. -/
def Party.create_bloom_filter (H : String → ℕ → ℕ) (p : Party)
    (size hash_count : ℕ) : Party :=
  { p with
    bloom_filter :=
      some ((BloomFilter.empty size hash_count).add_multiple H p.ioc_list) }

/-- Embeds `Party.encrypt_bloom_filter`: raises `ValueError` when
`bloom_filter is None`, otherwise encrypts the bit array, stores it and
returns it. -/
def Party.encrypt_bloom_filter (p : Party) :
    Except String (Party × List ℕ) :=
  match p.bloom_filter with
  | none =>
    Except.error "Bloom filter not created. Call create_bloom_filter first."
  | some bf =>
    Except.ok ({ p with encrypted_bloom := some (heEncrypt bf.bit_array) },
      heEncrypt bf.bit_array)

/-- Embeds the dictionary built by
`OverlapCalculator.compute_overlap_statistics`. -/
structure OverlapStatsDict where
  overlap_bits : ℕ
  bloom1_bits : ℕ
  bloom2_bits : ℕ
  jaccard_similarity : ℚ
  estimated_item_overlap : ℤ
  bloom1_items : ℕ
  bloom2_items : ℕ
  bloom_size : ℕ
  hash_count : ℕ

/-- Embeds `OverlapCalculator.compute_overlap_statistics`: homomorphic
multiply of the two ciphertexts, decrypt-and-sum for `overlap_bits`,
plaintext set-bit counts, Jaccard similarity and item-overlap estimate. -/
noncomputable def compute_overlap_statistics (bf1 bf2 : BloomFilter)
    (enc1 enc2 : List ℕ) : OverlapStatsDict :=
  let intersectionEnc := heMultiply enc1 enc2;
  let overlap_bits := (heDecrypt intersectionEnc).sum;
  let b1 := bf1.count_set_bits;
  let b2 := bf2.count_set_bits;
  ⟨overlap_bits, b1, b2,
    calculate_jaccard_similarity overlap_bits b1 b2,
    estimate_set_overlap overlap_bits b1 b2 bf1.size bf1.hash_count,
    bf1.item_count, bf2.item_count, bf1.size, bf1.hash_count⟩

/-- Embeds the `overlap_statistics` sub-record of the protocol result. -/
structure OverlapStatisticsOut where
  estimated_item_overlap : ℤ
  jaccard_similarity : ℚ
  overlap_bits : ℕ

/-- Embeds the `party1_info` / `party2_info` sub-records of the protocol
result: name, item count and set-bit count only. -/
structure PartyInfoOut where
  name : String
  ioc_count : ℕ
  bloom_set_bits : ℕ

/-- Embeds the dictionary returned by `TwoPartyProtocol.execute_protocol`.
Besides the two name strings every field is a number or a boolean: the
record has no field that could hold an indicator list or a bit vector. -/
structure ProtocolResult where
  overlap_statistics : OverlapStatisticsOut
  party1_info : PartyInfoOut
  party2_info : PartyInfoOut
  bloom_size : ℕ
  hash_count : ℕ
  privacy_preserved : Bool
  raw_iocs_exposed : Bool

/-- Every string occurring anywhere in a serialized `ProtocolResult`: the
two party names. All remaining fields are numeric or boolean scalars. -/
def resultStrings (r : ProtocolResult) : List String :=
  [r.party1_info.name, r.party2_info.name]

/-- Embeds the state of `TwoPartyProtocol`. -/
structure TwoPartyProtocol where
  bloom_size : ℕ
  hash_count : ℕ
  party1 : Option Party
  party2 : Option Party

/-- Embeds `TwoPartyProtocol.__init__`: parameters stored, no parties. -/
def TwoPartyProtocol.init (bloom_size hash_count : ℕ) : TwoPartyProtocol :=
  ⟨bloom_size, hash_count, none, none⟩

/-- Embeds `TwoPartyProtocol.setup_parties`: create both parties, set their
IoC lists and build both Bloom filters. (Key generation is the external HE
capability and produces no observable state here.) -/
def TwoPartyProtocol.setup_parties (H : String → ℕ → ℕ)
    (tp : TwoPartyProtocol) (name1 name2 : String)
    (iocs1 iocs2 : List String) : TwoPartyProtocol :=
  { tp with
    party1 := some (((Party.init name1).set_ioc_list iocs1).create_bloom_filter
      H tp.bloom_size tp.hash_count),
    party2 := some (((Party.init name2).set_ioc_list iocs2).create_bloom_filter
      H tp.bloom_size tp.hash_count) }

/-- Embeds `TwoPartyProtocol.execute_protocol`: `ValueError` when a party is
missing; the per-party `encrypt_bloom_filter` raises when the filter was
never built (folded into the same match); otherwise compute the overlap
statistics and shape the result record, with `privacy_preserved = True` and
`raw_iocs_exposed = False` set unconditionally on the success path. -/
noncomputable def TwoPartyProtocol.execute_protocol (tp : TwoPartyProtocol) :
    Except String ProtocolResult :=
  match tp.party1, tp.party2 with
  | none, _ => Except.error "Parties not set up. Call setup_parties first."
  | _, none => Except.error "Parties not set up. Call setup_parties first."
  | some p1, some p2 =>
    match p1.bloom_filter, p2.bloom_filter with
    | none, _ =>
      Except.error "Bloom filter not created. Call create_bloom_filter first."
    | _, none =>
      Except.error "Bloom filter not created. Call create_bloom_filter first."
    | some bf1, some bf2 =>
      let stats := compute_overlap_statistics bf1 bf2
        (heEncrypt bf1.bit_array) (heEncrypt bf2.bit_array);
      Except.ok
        ⟨⟨stats.estimated_item_overlap, stats.jaccard_similarity,
            stats.overlap_bits⟩,
          ⟨p1.name, p1.ioc_list.length, bf1.count_set_bits⟩,
          ⟨p2.name, p2.ioc_list.length, bf2.count_set_bits⟩,
          tp.bloom_size, tp.hash_count, true, false⟩

/-- C2: a run set up through `setup_parties` completes without error, the
returned result always carries `privacy_preserved = true` and
`raw_iocs_exposed = false`, and the only strings in the result record are
the two party names — so when the indicator values are distinct from the
party names, no indicator value (and no bit vector, the record having no
vector-valued field) appears in the result. -/
theorem execute_protocol_privacy (H : String → ℕ → ℕ) (name1 name2 : String)
    (iocs1 iocs2 : List String) (m k : ℕ)
    (h : ∀ s ∈ iocs1 ++ iocs2, s ≠ name1 ∧ s ≠ name2) :
    ∃ r, ((TwoPartyProtocol.init m k).setup_parties H name1 name2 iocs1
        iocs2).execute_protocol = Except.ok r ∧
      r.privacy_preserved = true ∧
      r.raw_iocs_exposed = false ∧
      resultStrings r = [name1, name2] ∧
      ∀ s ∈ iocs1 ++ iocs2, s ∉ resultStrings r := by
  refine ⟨_, rfl, rfl, rfl, rfl, ?_⟩
  intro s hs
  simp only [resultStrings, TwoPartyProtocol.setup_parties,
    TwoPartyProtocol.init, TwoPartyProtocol.execute_protocol, Party.init,
    Party.set_ioc_list, Party.create_bloom_filter, List.mem_cons,
    List.not_mem_nil, or_false]
  push_neg
  exact h s hs

/-- Witness for C2 with two single-indicator parties whose names differ
from every indicator. -/
theorem execute_protocol_privacy_witness :
    (∀ s ∈ (["1.2.3.4"] ++ ["8.8.8.8"] : List String),
      s ≠ "ISP-A" ∧ s ≠ "ISP-B") ∧
    ∃ r, ((TwoPartyProtocol.init 8 2).setup_parties (fun s i => s.length + i)
        "ISP-A" "ISP-B" ["1.2.3.4"] ["8.8.8.8"]).execute_protocol =
          Except.ok r ∧
      r.privacy_preserved = true ∧
      r.raw_iocs_exposed = false ∧
      resultStrings r = ["ISP-A", "ISP-B"] ∧
      ∀ s ∈ (["1.2.3.4"] ++ ["8.8.8.8"] : List String), s ∉ resultStrings r :=
  ⟨by decide,
    execute_protocol_privacy (fun s i => s.length + i) "ISP-A" "ISP-B"
      ["1.2.3.4"] ["8.8.8.8"] 8 2 (by decide)⟩

/-- C6 counterexample: calling `create_bloom_filter` on a freshly created
party, with `set_ioc_list` never called, does not fail with any error: it
silently builds a Bloom filter from the default empty indicator list. -/
theorem create_without_set_items_ok :
    ((Party.init "ISP-A").create_bloom_filter (fun s i => s.length + i)
      4 2).bloom_filter = some (BloomFilter.empty 4 2) := rfl

/-- C6 amended: `create_bloom_filter` performs no readiness check — it
always succeeds, using whatever `ioc_list` holds (the empty default when
`set_ioc_list` was never called) — while `encrypt_bloom_filter` does fail
with `ValueError` exactly when no filter has been built and succeeds after
`create_bloom_filter`. -/
theorem party_readiness_spec (H : String → ℕ → ℕ) (p : Party)
    (size hash_count : ℕ) :
    ((p.create_bloom_filter H size hash_count).bloom_filter =
      some ((BloomFilter.empty size hash_count).add_multiple H p.ioc_list))
    ∧ (p.bloom_filter = none →
      p.encrypt_bloom_filter =
        Except.error "Bloom filter not created. Call create_bloom_filter first.")
    ∧ (∀ bf, p.bloom_filter = some bf →
      p.encrypt_bloom_filter =
        Except.ok ({ p with encrypted_bloom := some (heEncrypt bf.bit_array) },
          heEncrypt bf.bit_array))
    ∧ (∃ q, (p.create_bloom_filter H size hash_count).encrypt_bloom_filter =
        Except.ok q) := by
  refine ⟨rfl, ?_, ?_, ?_⟩
  · intro hnone
    simp [Party.encrypt_bloom_filter, hnone]
  · intro bf hsome
    simp [Party.encrypt_bloom_filter, hsome]
  · exact ⟨_, rfl⟩

/-- Witness for C6 amended: a fresh party fails to encrypt, and succeeds
after building its filter. -/
theorem party_readiness_spec_witness :
    (Party.init "ISP-A").bloom_filter = none ∧
    (Party.init "ISP-A").encrypt_bloom_filter =
      Except.error "Bloom filter not created. Call create_bloom_filter first." ∧
    ∃ q, ((Party.init "ISP-A").create_bloom_filter (fun s i => s.length + i)
      4 2).encrypt_bloom_filter = Except.ok q :=
  ⟨rfl,
    (party_readiness_spec (fun s i => s.length + i) (Party.init "ISP-A")
      4 2).2.1 rfl,
    (party_readiness_spec (fun s i => s.length + i) (Party.init "ISP-A")
      4 2).2.2.2⟩

end PPT
